import Mathlib

/-!
# Verification of `utils/Utils.h` (namespace `util`)

A shallow embedding of the template functions defined in `Utils.h`.

* A `std::vector<T>` is a `List` of its elements, slot `0` first.
* A `T*` / `std::shared_ptr<T>` element is a value of a type with decidable
  equality; `==` on pointers (identity) is `=` on that type.  The raw pointer
  and the `shared_ptr` overloads have the same body, so one definition
  embeds both.
* A function taking `std::vector<...>&` returns the vector it leaves behind
  next to its `bool`.
* `int` is a 32 bit signed integer, `size_t` a 64 bit unsigned one.  Loop
  counters `int i` run over `0 .. size` and are natural numbers here.
* `std::vector::at` outside the vector throws and an iterator outside
  `[begin, end]` is invalid: both end the call with a `Fault`.
* A `std::stringstream` is the list of its unread characters with its
  `eofbit`, `failbit` and `badbit`; a formatted extraction `ss >> var` is a
  function from the stream and the variable to both after the extraction.
  The templates `splitString<T>` and `convertString<T>` take the extraction of
  `T` as an argument, and the value of their uninitialised local as another.
* `min`, `max` and `clamp` take the operators `<` and `>` of `T` as arguments.
-/

namespace util

universe u

variable {α : Type u}

/-! ## Machine integers -/

/-- Smallest value of `int`. -/
def INT_MIN : Int := -2147483648

/-- Largest value of `int`. -/
def INT_MAX : Int := 2147483647

/-- Conversion of an `int` to `size_t`, as the usual arithmetic conversions do
when an `int` is compared with `vector.size()`. -/
def toSizeT (i : Int) : Nat := (i % 2 ^ 64).toNat

/-! ## `std::vector` primitives -/

/-- Ways a call can end without returning. -/
inductive Fault where
  | out_of_range
  | invalid_iterator
  deriving DecidableEq, Repr

deriving instance DecidableEq for Except

/-- `vector.at(i)`: bounds-checked access, throws `std::out_of_range`. -/
def vector_at (vector : List α) (i : Nat) : Except Fault α :=
  if h : i < vector.length then .ok vector[i] else .error .out_of_range

/-- `vector.push_back(val)`. -/
def push_back (vector : List α) (val : α) : List α :=
  vector ++ [val]

/-- `vector.insert(vector.begin() + pos, val)`: the iterator must lie in
`[begin, end]`. -/
def vector_insert (vector : List α) (pos : Int) (val : α) : Except Fault (List α) :=
  if 0 ≤ pos ∧ pos ≤ vector.length then
    .ok (vector.take pos.toNat ++ val :: vector.drop pos.toNat)
  else .error .invalid_iterator

/-- `vector.erase(vector.begin() + i)`: the iterator must point at a slot. -/
def vector_erase (vector : List α) (i : Nat) : Except Fault (List α) :=
  if i < vector.length then .ok (vector.take i ++ vector.drop (i + 1))
  else .error .invalid_iterator

/-- `vector.insert(vector.begin() + pos, first, last)` for a position in
`[begin, end]`. -/
def vector_insert_range (vector : List α) (pos : Nat) (range : List α) : List α :=
  vector.take pos ++ range ++ vector.drop pos

/-! ## Pointer vectors -/

section PointerVectors

variable [DecidableEq α]

/-- The loop `for (int i = 0; i < vector.size(); i++)` of
`vectorContainsElement`, entered with counter `i`. -/
def vectorContainsElement.loop (vector : List α) (element : α) (i : Nat) : Bool :=
  if h : i < vector.length then
    if vector[i] = element then true
    else vectorContainsElement.loop vector element (i + 1)
  else false
termination_by vector.length - i

/-- `bool vectorContainsElement(std::vector<T*>& vector, T* element)`. -/
def vectorContainsElement (vector : List α) (element : α) : Bool × List α :=
  (vectorContainsElement.loop vector element 0, vector)

/-- The loop `for (T* item : vector) if (item == val) return false;` shared by
`addToVector` and `insertIntoVector`: `true` when the early return is taken. -/
def returnsEarly (val : α) : List α → Bool
  | [] => false
  | item :: rest => if item = val then true else returnsEarly val rest

/-- `bool addToVector(std::vector<T*>& vector, T* val)`. -/
def addToVector (vector : List α) (val : α) : Bool × List α :=
  if returnsEarly val vector then (false, vector)
  else (true, push_back vector val)

/-- `bool insertIntoVector(std::vector<T*>& vector, int index, T* val)`. -/
def insertIntoVector (vector : List α) (index : Int) (val : α) :
    Except Fault (Bool × List α) :=
  if returnsEarly val vector then .ok (false, vector)
  else if index < 0 then
    match vector_insert vector 0 val with
    | .error f => .error f
    | .ok v => .ok (true, v)
  else if toSizeT index ≥ vector.length then
    .ok (true, push_back vector val)
  else
    match vector_insert vector index val with
    | .error f => .error f
    | .ok v => .ok (true, v)

/-- The loop `for (int i = 0; i < vector.size(); i++)` of `removeFromVector`,
entered with counter `i`. -/
def removeFromVector.loop (vector : List α) (val : α) (i : Nat) :
    Except Fault (Bool × List α) :=
  if i < vector.length then
    match vector_at vector i with
    | .error f => .error f
    | .ok item =>
      if item = val then
        match vector_erase vector i with
        | .error f => .error f
        | .ok v => .ok (true, v)
      else removeFromVector.loop vector val (i + 1)
  else .ok (false, vector)
termination_by vector.length - i

/-- `bool removeFromVector(std::vector<T*>& vector, T* val)`. -/
def removeFromVector (vector : List α) (val : α) : Except Fault (Bool × List α) :=
  removeFromVector.loop vector val 0

end PointerVectors

/-- `std::vector<T> combineVectors(const std::vector<T>& V1, const std::vector<T>& V2)`. -/
def combineVectors (V1 V2 : List α) : List α :=
  let vx := V1
  vector_insert_range vx vx.length V2

/-! ## `std::stringstream` and `splitString<T>` -/

/-- A `std::stringstream`: the characters not yet read and the three state
bits of `std::ios_base::iostate`. -/
structure StringStream where
  buf : List Char
  eofbit : Bool
  failbit : Bool
  badbit : Bool
  deriving DecidableEq, Repr

/-- `ss.good()`: no state bit is set. -/
def StringStream.good (ss : StringStream) : Bool :=
  !ss.eofbit && !ss.failbit && !ss.badbit

/-- `ss.fail()`: `failbit` or `badbit` is set; `while (ss >> var)` tests
`!ss.fail()`. -/
def StringStream.fail (ss : StringStream) : Bool :=
  ss.failbit || ss.badbit

/-- `ss.bad()`: `badbit` is set. -/
def StringStream.bad (ss : StringStream) : Bool :=
  ss.badbit

/-- `std::stringstream ss; ss.str(str);`: a fresh stream over `str`. -/
def StringStream.str (str : String) : StringStream :=
  { buf := str.toList, eofbit := false, failbit := false, badbit := false }

/-- `std::isspace` in the classic locale. -/
def isspace (c : Char) : Bool :=
  c = ' ' || c = '\t' || c = '\n' || c = '\x0b' || c = '\x0c' || c = '\r'

/-- `std::isdigit`. -/
def isdigit (c : Char) : Bool :=
  '0'.toNat ≤ c.toNat && c.toNat ≤ '9'.toNat

/-- Whitespace skipping done by the `istream::sentry` of a formatted input. -/
def skipws : List Char → List Char
  | [] => []
  | c :: cs => if isspace c then skipws cs else c :: cs

/-- Value of a run of decimal digits. -/
def digitsValue (digits : List Char) : Nat :=
  digits.foldl (fun acc c => 10 * acc + (c.toNat - '0'.toNat)) 0

/-- `ss >> var` for `int var`: the sentry fails on a stream that is not good
or holds only whitespace; otherwise an optional sign and a run of digits are
read, and a missing digit or a value outside `int` sets `failbit`. Returns the
stream and `var` after the extraction. -/
def extractInt (ss : StringStream) (var : Int) : StringStream × Int :=
  if !ss.good then ({ ss with failbit := true }, var)
  else
    match skipws ss.buf with
    | [] => ({ ss with buf := [], eofbit := true, failbit := true }, var)
    | c :: cs =>
      let negative := c = '-'
      let body := if c = '-' || c = '+' then cs else c :: cs
      let digits := body.takeWhile isdigit
      let rest := body.dropWhile isdigit
      let value : Int := if negative then -(digitsValue digits : Int) else digitsValue digits
      if digits.isEmpty then
        ({ ss with buf := rest, eofbit := rest.isEmpty, failbit := true }, 0)
      else if value < INT_MIN then
        ({ ss with buf := rest, eofbit := rest.isEmpty, failbit := true }, INT_MIN)
      else if value > INT_MAX then
        ({ ss with buf := rest, eofbit := rest.isEmpty, failbit := true }, INT_MAX)
      else
        ({ ss with buf := rest, eofbit := rest.isEmpty }, value)

/-- The loop `while (ss >> var) { if (ss.bad()) continue; vec.push_back(var); }`
of `splitString<T>`, for the extraction `ss >> var` of the element type. Each
round that goes on reads at least one character, so `rounds` bounds the rounds
by the length of the string plus one. -/
def splitString.loop {T : Type} (extract : StringStream → T → StringStream × T) :
    Nat → StringStream → T → List T → List T
  | 0, _, _, vec => vec
  | rounds + 1, ss, var, vec =>
    let r := extract ss var
    if r.1.fail then vec
    else if r.1.bad then splitString.loop extract rounds r.1 r.2 vec
    else splitString.loop extract rounds r.1 r.2 (push_back vec r.2)

/-- `const std::vector<T> splitString(std::string str)`; `var` is the value of
the uninitialised local `T var`. -/
def splitString {T : Type} (extract : StringStream → T → StringStream × T) (var : T)
    (str : String) : List T :=
  if str.length = 0 then []
  else splitString.loop extract (str.length + 1) (StringStream.str str) var []

/-- `ss >> var` for `std::string var`: the sentry fails on a stream that is
not good or holds only whitespace; otherwise `var` is erased and receives the
characters up to the next whitespace character or the end of the stream, and
`failbit` is set when no character was stored. Returns the stream and `var`
after the extraction. -/
def extractString (ss : StringStream) (var : String) : StringStream × String :=
  if !ss.good then ({ ss with failbit := true }, var)
  else
    match skipws ss.buf with
    | [] => ({ ss with buf := [], eofbit := true, failbit := true }, var)
    | c :: cs =>
      let word := (c :: cs).takeWhile (fun x => !isspace x)
      let rest := (c :: cs).dropWhile (fun x => !isspace x)
      if word.isEmpty then
        ({ ss with buf := rest, eofbit := rest.isEmpty, failbit := true }, "")
      else
        ({ ss with buf := rest, eofbit := rest.isEmpty }, String.mk word)

/-- The stream and the variable after `n` successive extractions `ss >> var`. -/
def afterExtractions {T : Type} (extract : StringStream → T → StringStream × T) :
    Nat → StringStream → T → StringStream × T
  | 0, ss, var => (ss, var)
  | n + 1, ss, var =>
    extract (afterExtractions extract n ss var).1 (afterExtractions extract n ss var).2

/-- Specification side of `splitString<std::string>`: the maximal runs of
non-whitespace characters of `str`, left to right, that is the non-empty pieces
between its whitespace characters. -/
def nonWhitespaceRuns (str : String) : List String :=
  ((str.toList.splitOnP isspace).filter (fun run => !run.isEmpty)).map String.mk

/-- `T convertString(const std::string& str)`, for the extraction `ss >> val` of
the type; `val` is the value of the uninitialised local `T val`. -/
def convertString {T : Type} (extract : StringStream → T → StringStream × T) (val : T)
    (str : String) : T :=
  (extract (StringStream.str str) val).2

/-! ## `min`, `max`, `clamp` -/

/-- `T min(T val1, T val2)`, for the operator `<` of the type. -/
def min {T : Type} (lt : T → T → Bool) (val1 val2 : T) : T :=
  if lt val1 val2 then val1 else val2

/-- `T max(T val1, T val2)`, for the operator `>` of the type. -/
def max {T : Type} (gt : T → T → Bool) (val1 val2 : T) : T :=
  if gt val1 val2 then val1 else val2

/-- `T clamp(T val, T lowerBound, T upperBound)`, for the operators `<` and `>`
of the type. -/
def clamp {T : Type} (lt gt : T → T → Bool) (val lowerBound upperBound : T) : T :=
  if lt val lowerBound then lowerBound
  else if gt val upperBound then upperBound
  else val

/-! ## Lemmas on the loops -/

section LoopLemmas

variable [DecidableEq α]

/-- The range-for scan takes its early return exactly when `val` is in the vector. -/
theorem returnsEarly_iff (val : α) (l : List α) : returnsEarly val l = true ↔ val ∈ l := by
  induction l with
  | nil => simp [returnsEarly]
  | cons item rest ih =>
    by_cases h : item = val
    · simp [returnsEarly, h]
    · have h2 : ¬ val = item := fun e => h e.symm
      simp [returnsEarly, h, h2, ih]

/-- Entered at `i` with no slot from `i` on equal to `e`, the loop of
`vectorContainsElement` runs to the end and gives `false`. -/
theorem containsLoop_false (v : List α) (e : α) (i : Nat)
    (h : ∀ j, i ≤ j → j < v.length → v[j]? ≠ some e) :
    vectorContainsElement.loop v e i = false := by
  generalize hd : v.length - i = n
  induction n generalizing i with
  | zero =>
    rw [vectorContainsElement.loop]
    have : ¬ i < v.length := by omega
    simp [this]
  | succ n ih =>
    rw [vectorContainsElement.loop]
    have hi : i < v.length := by omega
    have hne : v[i] ≠ e := by
      intro heq
      exact h i (Nat.le_refl i) hi (by rw [List.getElem?_eq_getElem hi, heq])
    simp only [hi, ↓reduceDIte, hne, ↓reduceIte]
    exact ih (i + 1) (fun j hj hjl => h j (by omega) hjl) (by omega)

/-- Entered at or before a slot `k` that holds `e`, the loop of
`vectorContainsElement` gives `true`. -/
theorem containsLoop_true (v : List α) (e : α) (i k : Nat) (hik : i ≤ k)
    (hk : v[k]? = some e) : vectorContainsElement.loop v e i = true := by
  generalize hd : k - i = n
  induction n generalizing i with
  | zero =>
    have hik2 : i = k := by omega
    subst hik2
    obtain ⟨hlt, hval⟩ := List.getElem?_eq_some_iff.mp hk
    rw [vectorContainsElement.loop]
    simp [hlt, hval]
  | succ n ih =>
    obtain ⟨hlt, hval⟩ := List.getElem?_eq_some_iff.mp hk
    rw [vectorContainsElement.loop]
    have hi : i < v.length := by omega
    simp only [hi, ↓reduceDIte]
    by_cases hv : v[i] = e
    · simp [hv]
    · simp only [hv, ↓reduceIte]
      exact ih (i + 1) (by omega) (by omega)

/-- From counter `0` the loop of `vectorContainsElement` decides membership. -/
theorem containsLoop_zero_iff (v : List α) (e : α) :
    vectorContainsElement.loop v e 0 = true ↔ e ∈ v := by
  constructor
  · intro h
    by_contra hne
    have : vectorContainsElement.loop v e 0 = false := by
      apply containsLoop_false
      intro j _ hj hje
      exact hne (List.getElem?_mem hje)
    rw [this] at h
    exact Bool.false_ne_true h
  · intro h
    obtain ⟨k, hk, hke⟩ := List.getElem_of_mem h
    exact containsLoop_true v e 0 k (Nat.zero_le k) (by rw [List.getElem?_eq_getElem hk, hke])

/-- Entered at `i` with no slot from `i` on equal to `e`, the loop of
`removeFromVector` returns `false` and leaves the vector as it is. -/
theorem removeLoop_absent (v : List α) (e : α) (i : Nat)
    (h : ∀ j, i ≤ j → j < v.length → v[j]? ≠ some e) :
    removeFromVector.loop v e i = .ok (false, v) := by
  generalize hd : v.length - i = n
  induction n generalizing i with
  | zero =>
    rw [removeFromVector.loop]
    have : ¬ i < v.length := by omega
    simp [this]
  | succ n ih =>
    rw [removeFromVector.loop]
    have hi : i < v.length := by omega
    have hne : v[i] ≠ e := by
      intro heq
      exact h i (Nat.le_refl i) hi (by rw [List.getElem?_eq_getElem hi, heq])
    simp only [hi, ↓reduceIte, vector_at, ↓reduceDIte, hne]
    exact ih (i + 1) (fun j hj hjl => h j (by omega) hjl) (by omega)

/-- Entered at `i`, with `k` the first slot from `i` on that holds `e`, the loop
of `removeFromVector` erases slot `k` and returns `true`. -/
theorem removeLoop_present (v : List α) (e : α) (i k : Nat) (hik : i ≤ k)
    (hk : v[k]? = some e) (hfirst : ∀ j, i ≤ j → j < k → v[j]? ≠ some e) :
    removeFromVector.loop v e i = .ok (true, v.take k ++ v.drop (k + 1)) := by
  obtain ⟨hlt, hval⟩ := List.getElem?_eq_some_iff.mp hk
  generalize hd : k - i = n
  induction n generalizing i with
  | zero =>
    have hik2 : i = k := by omega
    subst hik2
    rw [removeFromVector.loop]
    simp [hlt, hval, vector_at, vector_erase]
  | succ n ih =>
    rw [removeFromVector.loop]
    have hi : i < v.length := by omega
    have hne : v[i] ≠ e := by
      intro heq
      exact hfirst i (Nat.le_refl i) (by omega) (by rw [List.getElem?_eq_getElem hi, heq])
    simp only [hi, ↓reduceIte, vector_at, ↓reduceDIte, hne]
    exact ih (i + 1) (by omega) (fun j hj hjk => hfirst j (by omega) hjk) (by omega)

/-- Every occurring element has a first (lowest-index) occurrence. -/
theorem exists_first_index (v : List α) (e : α) (h : e ∈ v) :
    ∃ k : Nat, v[k]? = some e ∧ ∀ j : Nat, j < k → v[j]? ≠ some e := by
  classical
  have hex : ∃ k : Nat, v[k]? = some e := List.mem_iff_getElem?.mp h
  refine ⟨Nat.find hex, Nat.find_spec hex, ?_⟩
  intro j hj
  exact Nat.find_min hex hj

/-- Converting a non-negative `int` to `size_t` keeps its value. -/
theorem toSizeT_of_int (index : Int) (h0 : 0 ≤ index) (h1 : index ≤ INT_MAX) :
    toSizeT index = index.toNat := by
  unfold toSizeT
  unfold INT_MAX at h1
  rw [Int.emod_eq_of_lt h0 (by omega)]

/-- Closed form of `removeFromVector`: it reports membership and erases the
first occurrence. -/
theorem removeFromVector_eq (seq : List α) (e : α) :
    removeFromVector seq e = .ok (decide (e ∈ seq), seq.erase e) := by
  by_cases h : e ∈ seq
  · obtain ⟨k, hk, hfirst⟩ := exists_first_index seq e h
    obtain ⟨hlt, hval⟩ := List.getElem?_eq_some_iff.mp hk
    have herase : seq.erase e = seq.take k ++ seq.drop (k + 1) := by
      rw [List.erase_eq_iff]
      right
      refine ⟨seq.take k, seq.drop (k + 1), ?_, ?_, rfl⟩
      · intro hmem
        obtain ⟨j, hj, hje⟩ := List.getElem_of_mem hmem
        rw [List.length_take] at hj
        rw [List.getElem_take] at hje
        exact hfirst j (by omega) (by rw [List.getElem?_eq_getElem (by omega), hje])
      · rw [← hval, List.getElem_cons_drop, List.take_append_drop]
    rw [herase]
    simp only [h, decide_True]
    exact removeLoop_present seq e 0 k (Nat.zero_le k) hk (fun j _ hjk => hfirst j hjk)
  · rw [List.erase_of_not_mem h]
    simp only [h, decide_False]
    exact removeLoop_absent seq e 0 (fun j _ _ hje => h (List.getElem?_mem hje))

/-- Closed form of `insertIntoVector` for an `int` index and an element that is
not in the vector. -/
theorem insertIntoVector_eq (seq : List α) (index : Int) (e : α)
    (hindex : INT_MIN ≤ index ∧ index ≤ INT_MAX) (he : e ∉ seq) :
    insertIntoVector seq index e
      = .ok (true, seq.take index.toNat ++ e :: seq.drop index.toNat) := by
  have hre : returnsEarly e seq = false := by
    rw [← Bool.not_eq_true, returnsEarly_iff]
    exact he
  unfold insertIntoVector
  simp only [hre, Bool.false_eq_true, ↓reduceIte]
  by_cases hneg : index < 0
  · have : index.toNat = 0 := by omega
    simp [hneg, vector_insert, this]
  · have h0 : 0 ≤ index := by omega
    simp only [hneg, ↓reduceIte, toSizeT_of_int index h0 hindex.2]
    by_cases hge : index.toNat ≥ seq.length
    · simp only [hge, ↓reduceIte, push_back]
      rw [List.take_of_length_le hge, List.drop_of_length_le hge]
    · have hle : index ≤ (seq.length : Int) := by omega
      simp [hge, vector_insert, h0, hle]

/-- Closed form of `addToVector`. -/
theorem addToVector_eq (seq : List α) (e : α) :
    addToVector seq e = if e ∈ seq then (false, seq) else (true, seq ++ [e]) := by
  by_cases h : e ∈ seq
  · have hre : returnsEarly e seq = true := (returnsEarly_iff e seq).mpr h
    simp [addToVector, hre, h]
  · have hre : returnsEarly e seq = false := by
      rw [← Bool.not_eq_true, returnsEarly_iff]
      exact h
    simp [addToVector, hre, h, push_back]

/-- Closed form of `vectorContainsElement`. -/
theorem vectorContainsElement_eq (seq : List α) (e : α) :
    vectorContainsElement seq e = (decide (e ∈ seq), seq) := by
  unfold vectorContainsElement
  congr 1
  by_cases h : e ∈ seq
  · simp [h, (containsLoop_zero_iff seq e).mpr h]
  · have : vectorContainsElement.loop seq e 0 = false := by
      rw [← Bool.not_eq_true, containsLoop_zero_iff]
      exact h
    simp [h, this]

/-- An element already in the vector is refused by `insertIntoVector`. -/
theorem insertIntoVector_of_mem (seq : List α) (index : Int) (e : α) (he : e ∈ seq) :
    insertIntoVector seq index e = .ok (false, seq) := by
  have hre : returnsEarly e seq = true := (returnsEarly_iff e seq).mpr he
  simp [insertIntoVector, hre]

end LoopLemmas

/-! ## The pointer-vector operations -/

section CollectionClaims

variable [DecidableEq α]

/-- C1: for an `int` index and an element `e` that is not in `seq`,
`insertIntoVector(seq, index, e)` returns `true` and leaves
`(first p old elements) ++ [e] ++ (remaining old elements)`, where `p` is `0`
for a negative index, `length(seq)` for an index at or past the length and
`index` otherwise; `e` is in slot `p`, right before the element that was in
slot `p`. -/
theorem insertIntoVector_inserts_at_clamped_index (seq : List α) (index : Int) (e : α)
    (hindex : INT_MIN ≤ index ∧ index ≤ INT_MAX) (he : e ∉ seq) :
    ∃ p : Nat,
      (p : Int) = (if index < 0 then 0
                   else if index ≥ (seq.length : Int) then (seq.length : Int)
                   else index) ∧
      insertIntoVector seq index e = .ok (true, seq.take p ++ [e] ++ seq.drop p) ∧
      (seq.take p ++ [e] ++ seq.drop p)[p]? = some e ∧
      (seq.take p ++ [e] ++ seq.drop p)[p + 1]? = seq[p]? := by
  refine ⟨Min.min index.toNat seq.length, ?_, ?_, ?_, ?_⟩
  · split_ifs <;> omega
  · rw [insertIntoVector_eq seq index e hindex he]
    by_cases hle : index.toNat ≤ seq.length
    · rw [Nat.min_eq_left hle]
      simp
    · have hge : seq.length ≤ index.toNat := by omega
      rw [Nat.min_eq_right hge, List.take_of_length_le hge, List.drop_of_length_le hge]
      simp
  · have hlen : (seq.take (Min.min index.toNat seq.length)).length = Min.min index.toNat seq.length := by
      rw [List.length_take]
      omega
    rw [List.append_assoc, List.getElem?_append_right (by omega)]
    simp [hlen]
  · have hlen : (seq.take (Min.min index.toNat seq.length)).length = Min.min index.toNat seq.length := by
      rw [List.length_take]
      omega
    rw [List.append_assoc, List.getElem?_append_right (by omega)]
    simp [hlen]

/-- Witness of C1: inserting `9` into `[1, 2, 3]` at the indices `-5`, `1`
and `9999`. -/
theorem insertIntoVector_inserts_at_clamped_index_witness :
    insertIntoVector [1, 2, 3] (-5) 9 = .ok (true, [9, 1, 2, 3]) ∧
    insertIntoVector [1, 2, 3] 1 9 = .ok (true, [1, 9, 2, 3]) ∧
    insertIntoVector [1, 2, 3] 9999 9 = .ok (true, [1, 2, 3, 9]) := by
  refine ⟨?_, ?_, ?_⟩
  · obtain ⟨p, hp, hres, _, _⟩ :=
      insertIntoVector_inserts_at_clamped_index [1, 2, 3] (-5) 9 (by decide) (by decide)
    have hp0 : p = 0 := by
      simp only [List.length_cons, List.length_nil] at hp
      omega
    subst hp0
    exact hres
  · obtain ⟨p, hp, hres, _, _⟩ :=
      insertIntoVector_inserts_at_clamped_index [1, 2, 3] 1 9 (by decide) (by decide)
    have hp1 : p = 1 := by
      simp only [List.length_cons, List.length_nil] at hp
      omega
    subst hp1
    exact hres
  · obtain ⟨p, hp, hres, _, _⟩ :=
      insertIntoVector_inserts_at_clamped_index [1, 2, 3] 9999 9 (by decide) (by decide)
    have hp3 : p = 3 := by
      simp only [List.length_cons, List.length_nil] at hp
      omega
    subst hp3
    exact hres

/-- C2: `removeFromVector(seq, e)` returns `true` exactly when `e` occurs in
`seq`; it then leaves `seq` without the slot of the first occurrence of `e`,
the other slots in their order; when it returns `false`, `seq` is unchanged. -/
theorem removeFromVector_erases_first_occurrence (seq : List α) (e : α) :
    (∃ b s, removeFromVector seq e = .ok (b, s) ∧ (b = true ↔ e ∈ seq)) ∧
    (e ∈ seq → ∃ k : Nat, seq[k]? = some e ∧ (∀ j : Nat, j < k → seq[j]? ≠ some e) ∧
      removeFromVector seq e = .ok (true, seq.take k ++ seq.drop (k + 1))) ∧
    (e ∉ seq → removeFromVector seq e = .ok (false, seq)) := by
  refine ⟨⟨decide (e ∈ seq), seq.erase e, removeFromVector_eq seq e, by simp⟩, ?_, ?_⟩
  · intro h
    obtain ⟨k, hk, hfirst⟩ := exists_first_index seq e h
    exact ⟨k, hk, hfirst,
      removeLoop_present seq e 0 k (Nat.zero_le k) hk (fun j _ hjk => hfirst j hjk)⟩
  · intro h
    exact removeLoop_absent seq e 0 (fun j _ _ hje => h (List.getElem?_mem hje))

/-- Witness of C2: removing `1` from `[2, 1, 3, 1]` and `7` from `[2, 1]`. -/
theorem removeFromVector_erases_first_occurrence_witness :
    removeFromVector [2, 1, 3, 1] 1 = .ok (true, [2, 3, 1]) ∧
    removeFromVector [2, 1] 7 = .ok (false, [2, 1]) := by
  constructor
  · obtain ⟨k, hk, hfirst, hres⟩ :=
      (removeFromVector_erases_first_occurrence [2, 1, 3, 1] 1).2.1 (by decide)
    have hk1 : k = 1 := by
      match k, hk, hfirst with
      | 0, hk, _ => simp at hk
      | 1, _, _ => rfl
      | j + 2, _, hfirst => exact absurd rfl (hfirst 1 (by omega))
    subst hk1
    exact hres
  · exact (removeFromVector_erases_first_occurrence [2, 1] 7).2.2 (by decide)

/-- C3: when `vectorContainsElement(seq, e)` is `true`, `addToVector(seq, e)`
returns `false` and leaves `seq` unchanged; otherwise it returns `true` and
leaves `seq` followed by `e` as its last element. -/
theorem addToVector_appends_unless_contained (seq : List α) (e : α) :
    ((vectorContainsElement seq e).1 = true → addToVector seq e = (false, seq)) ∧
    ((vectorContainsElement seq e).1 = false →
      addToVector seq e = (true, seq ++ [e]) ∧ (addToVector seq e).2.getLast? = some e) := by
  constructor
  · intro h
    have hmem : e ∈ seq := (containsLoop_zero_iff seq e).mp h
    have hre : returnsEarly e seq = true := (returnsEarly_iff e seq).mpr hmem
    simp [addToVector, hre]
  · intro h
    have hmem : e ∉ seq := by
      intro hin
      have := (containsLoop_zero_iff seq e).mpr hin
      simp only [vectorContainsElement] at h
      rw [h] at this
      exact Bool.false_ne_true this
    have hre : returnsEarly e seq = false := by
      rw [← Bool.not_eq_true, returnsEarly_iff]
      exact hmem
    simp [addToVector, hre, push_back]

/-- Witness of C3: adding `2` and adding `5` to `[1, 2, 3]`. -/
theorem addToVector_appends_unless_contained_witness :
    addToVector [1, 2, 3] 2 = (false, [1, 2, 3]) ∧
    addToVector [1, 2, 3] 5 = (true, [1, 2, 3, 5]) :=
  ⟨(addToVector_appends_unless_contained [1, 2, 3] 2).1
      (by simp [vectorContainsElement, vectorContainsElement.loop]),
   ((addToVector_appends_unless_contained [1, 2, 3] 5).2
      (by simp [vectorContainsElement, vectorContainsElement.loop])).1⟩

/-- C4: for an element `e` that already occurs in `seq`,
`insertIntoVector(seq, index, e)` returns `false` and leaves `seq` unchanged,
whatever the index. -/
theorem insertIntoVector_rejects_duplicate (seq : List α) (index : Int) (e : α)
    (he : e ∈ seq) :
    insertIntoVector seq index e = .ok (false, seq) :=
  insertIntoVector_of_mem seq index e he

/-- Witness of C4: inserting `2` again into `[1, 2, 3]` at index `-1`. -/
theorem insertIntoVector_rejects_duplicate_witness :
    insertIntoVector [1, 2, 3] (-1) 2 = .ok (false, [1, 2, 3]) :=
  insertIntoVector_rejects_duplicate [1, 2, 3] (-1) 2 (by decide)

/-- C5: when no two slots of `seq` hold the same element, the same is true of
the sequence left by `addToVector(seq, e)`, by `insertIntoVector(seq, index, e)`
and by `removeFromVector(seq, e)`, whatever they return. -/
theorem operations_preserve_uniqueness (seq : List α) (index : Int) (e : α)
    (hindex : INT_MIN ≤ index ∧ index ≤ INT_MAX) (hnd : seq.Nodup) :
    (addToVector seq e).2.Nodup ∧
    (∃ b s, insertIntoVector seq index e = .ok (b, s) ∧ s.Nodup) ∧
    (∃ b s, removeFromVector seq e = .ok (b, s) ∧ s.Nodup) := by
  refine ⟨?_, ?_, ?_⟩
  · rw [addToVector_eq]
    by_cases h : e ∈ seq
    · simpa [h] using hnd
    · simp only [h, ↓reduceIte]
      rw [List.nodup_append]
      refine ⟨hnd, List.nodup_singleton e, ?_⟩
      intro a ha hb
      rw [List.mem_singleton] at hb
      subst hb
      exact h ha
  · by_cases h : e ∈ seq
    · exact ⟨false, seq, insertIntoVector_of_mem seq index e h, hnd⟩
    · refine ⟨true, _, insertIntoVector_eq seq index e hindex h, ?_⟩
      rw [List.nodup_middle, List.take_append_drop]
      exact List.nodup_cons.mpr ⟨h, hnd⟩
  · exact ⟨decide (e ∈ seq), seq.erase e, removeFromVector_eq seq e, hnd.erase e⟩

/-- Witness of C5: the three operations on the duplicate-free `[1, 2, 3]`. -/
theorem operations_preserve_uniqueness_witness :
    ([1, 2, 3] : List Nat).Nodup ∧
    (addToVector [1, 2, 3] 4).2.Nodup ∧
    (∃ b s, insertIntoVector [1, 2, 3] 1 4 = .ok (b, s) ∧ s.Nodup) ∧
    (∃ b s, removeFromVector [1, 2, 3] 4 = .ok (b, s) ∧ s.Nodup) :=
  ⟨by decide, operations_preserve_uniqueness [1, 2, 3] 1 4 (by decide) (by decide)⟩

/-- C6: `vectorContainsElement(seq, e)` returns `true` if and only if some slot
of `seq` is equal to `e`; it returns `false` on the empty sequence, and it
leaves `seq` unchanged. -/
theorem vectorContainsElement_iff_some_slot (seq : List α) (e : α) :
    ((vectorContainsElement seq e).1 = true ↔
      ∃ i : Nat, ∃ h : i < seq.length, seq.get ⟨i, h⟩ = e) ∧
    (vectorContainsElement ([] : List α) e).1 = false ∧
    (vectorContainsElement seq e).2 = seq := by
  refine ⟨?_, ?_, rfl⟩
  · rw [vectorContainsElement_eq]
    simp only [decide_eq_true_eq, List.get_eq_getElem]
    exact List.mem_iff_getElem
  · rw [vectorContainsElement_eq]
    simp

/-- C7, as amended: when `e` occurs at most once in `seq`,
`removeFromVector(seq, e)` called right after `addToVector(seq, e)` returns
`true` and leaves `vectorContainsElement(seq, e)` false, and a second
`removeFromVector(seq, e)` returns `false` and changes nothing. -/
theorem remove_after_add_of_at_most_once (seq : List α) (e : α)
    (honce : seq.count e ≤ 1) :
    ∃ s1, removeFromVector (addToVector seq e).2 e = .ok (true, s1) ∧
      (vectorContainsElement s1 e).1 = false ∧
      removeFromVector s1 e = .ok (false, s1) := by
  have hcount : ((addToVector seq e).2.erase e).count e = 0 := by
    rw [addToVector_eq]
    by_cases h : e ∈ seq
    · simp only [h, ↓reduceIte, List.count_erase_self]
      omega
    · simp only [h, ↓reduceIte, List.count_erase_self, List.count_append,
        List.count_eq_zero_of_not_mem h]
      simp
  have hnot : e ∉ (addToVector seq e).2.erase e := List.count_eq_zero.mp hcount
  have hin : e ∈ (addToVector seq e).2 := by
    rw [addToVector_eq]
    by_cases h : e ∈ seq <;> simp [h]
  refine ⟨(addToVector seq e).2.erase e, ?_, ?_, ?_⟩
  · rw [removeFromVector_eq]
    simp [hin]
  · rw [vectorContainsElement_eq]
    simp [hnot]
  · rw [removeFromVector_eq, List.erase_of_not_mem hnot]
    simp [hnot]

/-- Witness of C7 as amended: `seq` empty before the add, as in the spec. -/
theorem remove_after_add_of_at_most_once_witness :
    ([] : List Nat).count 5 ≤ 1 ∧
    ∃ s1, removeFromVector (addToVector ([] : List Nat) 5).2 5 = .ok (true, s1) ∧
      (vectorContainsElement s1 5).1 = false ∧
      removeFromVector s1 5 = .ok (false, s1) :=
  ⟨by decide, remove_after_add_of_at_most_once [] 5 (by decide)⟩

/-- C7 as stated fails on a sequence that holds `e` twice: on `[1, 1]` the add
of `1` is refused, the remove erases only the first `1`, so `1` is still
contained and a second remove succeeds. -/
theorem remove_after_add_counterexample :
    addToVector [1, 1] 1 = (false, [1, 1]) ∧
    removeFromVector (addToVector [1, 1] 1).2 1 = .ok (true, [1]) ∧
    (vectorContainsElement [1] 1).1 = true ∧
    removeFromVector [1] 1 = .ok (true, []) ∧
    ¬ ∃ s1, removeFromVector (addToVector [1, 1] 1).2 1 = .ok (true, s1) ∧
        (vectorContainsElement s1 1).1 = false := by
  have hadd : addToVector [1, 1] 1 = (false, [1, 1]) := by decide
  have hrem : removeFromVector [1, 1] 1 = .ok (true, [1]) := by
    simp [removeFromVector, removeFromVector.loop, vector_at, vector_erase]
  have hcon : (vectorContainsElement [1] 1).1 = true := by
    simp [vectorContainsElement, vectorContainsElement.loop]
  refine ⟨hadd, ?_, hcon, ?_, ?_⟩
  · rw [hadd]
    exact hrem
  · simp [removeFromVector, removeFromVector.loop, vector_at, vector_erase]
  · rintro ⟨s1, h1, h2⟩
    rw [hadd, hrem] at h1
    have hs : s1 = [1] := by
      injection h1 with h1
      injection h1 with _ h1
      exact h1.symm
    rw [hs, hcon] at h2
    exact Bool.noConfusion h2

/-- C8: after `addToVector(seq, e)` the sequence contains `e`; a second
`addToVector(seq, e)` returns `false` and leaves the sequence and its length
unchanged; when `seq` did not contain `e`, and so when `seq` is empty, the
first add returns `true` and the length grows by exactly one. -/
theorem addToVector_idempotent (seq : List α) (e : α) :
    (vectorContainsElement (addToVector seq e).2 e).1 = true ∧
    addToVector (addToVector seq e).2 e = (false, (addToVector seq e).2) ∧
    (addToVector (addToVector seq e).2 e).2.length = (addToVector seq e).2.length ∧
    (e ∉ seq → (addToVector seq e).1 = true ∧
      (addToVector seq e).2.length = seq.length + 1) ∧
    ((addToVector ([] : List α) e).1 = true ∧
      (addToVector ([] : List α) e).2.length = 1) := by
  have hin : e ∈ (addToVector seq e).2 := by
    rw [addToVector_eq]
    by_cases h : e ∈ seq <;> simp [h]
  have hsecond : addToVector (addToVector seq e).2 e = (false, (addToVector seq e).2) := by
    rw [addToVector_eq (addToVector seq e).2 e]
    simp [hin]
  refine ⟨?_, hsecond, ?_, ?_, ?_⟩
  · rw [vectorContainsElement_eq]
    simp [hin]
  · rw [hsecond]
  · intro h
    rw [addToVector_eq]
    simp [h]
  · rw [addToVector_eq]
    simp

/-- Witness of C8: adding `5` to `[1, 2, 3]`, which does not contain it. -/
theorem addToVector_idempotent_witness :
    (5 : Nat) ∉ [1, 2, 3] ∧
    (addToVector [1, 2, 3] 5).1 = true ∧
    (addToVector [1, 2, 3] 5).2.length = [1, 2, 3].length + 1 :=
  ⟨by decide, (addToVector_idempotent [1, 2, 3] 5).2.2.2.1 (by decide)⟩

end CollectionClaims

/-- C9: `combineVectors(V1, V2)` is the concatenation `V1 ++ V2`: its length is
the sum of the lengths, its first `length(V1)` elements are `V1` and the rest
are `V2`, repeated elements included; `combine([1,2],[2,3]) = [1,2,2,3]`. -/
theorem combineVectors_eq_append {α : Type u} (V1 V2 : List α) :
    combineVectors V1 V2 = V1 ++ V2 ∧
    (combineVectors V1 V2).length = V1.length + V2.length ∧
    (combineVectors V1 V2).take V1.length = V1 ∧
    (combineVectors V1 V2).drop V1.length = V2 ∧
    combineVectors [1, 2] [2, 3] = [1, 2, 2, 3] := by
  have h : combineVectors V1 V2 = V1 ++ V2 := by
    simp [combineVectors, vector_insert_range]
  refine ⟨h, ?_, ?_, ?_, by decide⟩
  · rw [h, List.length_append]
  · rw [h, List.take_left]
  · rw [h, List.drop_left]

/-! ## `splitString<T>` -/

/-- Skipping whitespace never lengthens the unread part. -/
theorem skipws_length_le (l : List Char) : (skipws l).length ≤ l.length := by
  induction l with
  | nil => simp [skipws]
  | cons c cs ih =>
    unfold skipws
    split
    · exact Nat.le_succ_of_le ih
    · exact Nat.le_refl _

/-- An extraction `ss >> var` of an `int` that does not fail reads at least one
character. -/
theorem extractInt_reads (ss : StringStream) (var : Int)
    (h : (extractInt ss var).1.fail = false) :
    (extractInt ss var).1.buf.length < ss.buf.length := by
  generalize hr : extractInt ss var = r at h ⊢
  unfold extractInt at hr
  split at hr
  · subst hr
    simp [StringStream.fail] at h
  · have hws := skipws_length_le ss.buf
    split at hr
    · subst hr
      simp [StringStream.fail] at h
    · rename_i c cs hsk
      rw [hsk] at hws
      simp only at hr
      have hbody : (if (c = '-' || c = '+') = true then cs else c :: cs).length
          ≤ (c :: cs).length := by
        split <;> simp
      generalize (if (c = '-' || c = '+') = true then cs else c :: cs) = body at hr hbody
      have hlen : (body.takeWhile isdigit).length + (body.dropWhile isdigit).length
          = body.length := by
        rw [← List.length_append, List.takeWhile_append_dropWhile]
      by_cases hd : (body.takeWhile isdigit).isEmpty = true
      · simp only [hd, ↓reduceIte] at hr
        subst hr
        simp [StringStream.fail] at h
      · have hpos : 0 < (body.takeWhile isdigit).length := by
          rw [List.length_pos]
          intro hnil
          exact hd (by rw [hnil]; rfl)
        simp only [hd, Bool.false_eq_true, ↓reduceIte] at hr
        split_ifs at hr <;> subst hr <;>
          first
          | (simp [StringStream.fail] at h; done)
          | (simp only; omega)

/-- The loop of `splitString<int>` gives the same vector for every bound on the
rounds above the number of unread characters: the bound never ends the loop. -/
theorem splitString_loop_rounds (n m : Nat) (ss : StringStream) (var : Int) (vec : List Int)
    (hn : ss.buf.length < n) (hm : ss.buf.length < m) :
    splitString.loop extractInt n ss var vec = splitString.loop extractInt m ss var vec := by
  induction n generalizing m ss var vec with
  | zero => omega
  | succ n ih =>
    cases m with
    | zero => omega
    | succ m =>
      simp only [splitString.loop]
      by_cases hf : (extractInt ss var).1.fail = true
      · simp [hf]
      · have hf2 : (extractInt ss var).1.fail = false := by simpa using hf
        have hlt := extractInt_reads ss var hf2
        simp only [hf2, Bool.false_eq_true, ↓reduceIte]
        split
        · exact ih m _ _ _ (by omega) (by omega)
        · exact ih m _ _ _ (by omega) (by omega)

/-- C10 fails on the code: `splitString<int>("1 a 2")` is `[1]`, not `[1, 2]`.
The extraction of `a` sets `failbit`, which ends `while (ss >> var)`; `ss.bad()`
is false in every round, so the `continue` is never reached, and no larger
bound on the rounds changes the result. -/
theorem splitString_stops_at_failed_token (var : Int) :
    splitString extractInt var "1 a 2" = [1] ∧
    splitString extractInt var "1 a 2" ≠ [1, 2] ∧
    (extractInt (StringStream.str "1 a 2") var).1.fail = false ∧
    (extractInt (extractInt (StringStream.str "1 a 2") var).1 1).1.fail = true ∧
    (extractInt (extractInt (StringStream.str "1 a 2") var).1 1).1.bad = false ∧
    (∀ rounds, "1 a 2".length < rounds →
      splitString.loop extractInt rounds (StringStream.str "1 a 2") var [] = [1]) ∧
    splitString extractInt var "" = [] := by
  have h1 : splitString extractInt var "1 a 2" = [1] := rfl
  refine ⟨h1, ?_, rfl, rfl, rfl, ?_, rfl⟩
  · rw [h1]
    decide
  · intro rounds hr
    rw [splitString_loop_rounds rounds ("1 a 2".length + 1) (StringStream.str "1 a 2") var []
      hr (Nat.lt_succ_self _)]
    rfl

/-! ## `min`, `max` and `clamp` -/

/-- C13: for any operators `<` and `>`, `min(a, b)` is `a` when `a < b` and `b`
otherwise, and `max(a, b)` is `a` when `a > b` and `b` otherwise; so when
neither `a < b` nor `a > b` holds both return the second argument `b`; and
`min(3, 5) = 3`, `max(3, 5) = 5`. -/
theorem min_max_return_second_unless_strict {T : Type} (lt gt : T → T → Bool) (a b : T) :
    (lt a b = true → min lt a b = a) ∧
    (lt a b = false → min lt a b = b) ∧
    (gt a b = true → max gt a b = a) ∧
    (gt a b = false → max gt a b = b) ∧
    (lt a b = false → gt a b = false → min lt a b = b ∧ max gt a b = b) ∧
    min (fun x y : Int => decide (x < y)) 3 5 = 3 ∧
    max (fun x y : Int => decide (x > y)) 3 5 = 5 := by
  refine ⟨?_, ?_, ?_, ?_, ?_, by decide, by decide⟩
  · intro h
    simp [min, h]
  · intro h
    simp [min, h]
  · intro h
    simp [max, h]
  · intro h
    simp [max, h]
  · intro h1 h2
    simp [min, max, h1, h2]

/-- Witness of C13: on the tie `a = b = 4` of `int`, and on `3 < 5`. -/
theorem min_max_return_second_unless_strict_witness :
    min (fun x y : Int => decide (x < y)) 3 5 = 3 ∧
    (min (fun x y : Int => decide (x < y)) 4 4 = 4 ∧
      max (fun x y : Int => decide (x > y)) 4 4 = 4) :=
  ⟨(min_max_return_second_unless_strict (fun x y : Int => decide (x < y))
      (fun x y : Int => decide (x > y)) 3 5).1 (by decide),
   (min_max_return_second_unless_strict (fun x y : Int => decide (x < y))
      (fun x y : Int => decide (x > y)) 4 4).2.2.2.2.1 (by decide) (by decide)⟩

/-- C14: for any operators `<` and `>` and any `val`, `lower`, `upper`, with
nothing assumed on `lower` and `upper`: `clamp(val, lower, upper)` is `lower`
when `val < lower`; otherwise `upper` when `val > upper`; otherwise `val`; and
`clamp(10, 0, 5) = 5`, `clamp(-1, 0, 5) = 0`. -/
theorem clamp_lower_then_upper_then_val {T : Type} (lt gt : T → T → Bool)
    (val lower upper : T) :
    (lt val lower = true → clamp lt gt val lower upper = lower) ∧
    (lt val lower = false → gt val upper = true → clamp lt gt val lower upper = upper) ∧
    (lt val lower = false → gt val upper = false → clamp lt gt val lower upper = val) ∧
    clamp (fun x y : Int => decide (x < y)) (fun x y : Int => decide (x > y)) 10 0 5 = 5 ∧
    clamp (fun x y : Int => decide (x < y)) (fun x y : Int => decide (x > y)) (-1) 0 5 = 0 := by
  refine ⟨?_, ?_, ?_, by decide, by decide⟩
  · intro h
    simp [clamp, h]
  · intro h1 h2
    simp [clamp, h1, h2]
  · intro h1 h2
    simp [clamp, h1, h2]

/-- Witness of C14: `clamp(10, 0, 5)`, `clamp(-1, 0, 5)` and `clamp(3, 0, 5)` on
`int`, and `clamp(3, 5, 0)` with the bounds swapped. -/
theorem clamp_lower_then_upper_then_val_witness :
    clamp (fun x y : Int => decide (x < y)) (fun x y : Int => decide (x > y)) (-1) 0 5 = 0 ∧
    clamp (fun x y : Int => decide (x < y)) (fun x y : Int => decide (x > y)) 10 0 5 = 5 ∧
    clamp (fun x y : Int => decide (x < y)) (fun x y : Int => decide (x > y)) 3 0 5 = 3 ∧
    clamp (fun x y : Int => decide (x < y)) (fun x y : Int => decide (x > y)) 3 5 0 = 5 :=
  ⟨(clamp_lower_then_upper_then_val _ _ (-1) 0 5).1 (by decide),
   (clamp_lower_then_upper_then_val _ _ 10 0 5).2.1 (by decide) (by decide),
   (clamp_lower_then_upper_then_val _ _ 3 0 5).2.2.1 (by decide) (by decide),
   (clamp_lower_then_upper_then_val _ _ 3 5 0).1 (by decide)⟩

/-- C19: on a linearly ordered type, with `lower ≤ upper`, `clamp` projects onto
the interval `[lower, upper]`: the result lies in the interval, a value of the
interval is returned unchanged, and clamping twice is clamping once. -/
theorem clamp_projects_onto_interval {T : Type} [LinearOrder T] (val lower upper : T)
    (hbounds : lower ≤ upper) :
    lower ≤ clamp (fun x y => decide (x < y)) (fun x y => decide (x > y)) val lower upper ∧
    clamp (fun x y => decide (x < y)) (fun x y => decide (x > y)) val lower upper ≤ upper ∧
    (lower ≤ val → val ≤ upper →
      clamp (fun x y => decide (x < y)) (fun x y => decide (x > y)) val lower upper = val) ∧
    clamp (fun x y => decide (x < y)) (fun x y => decide (x > y))
        (clamp (fun x y => decide (x < y)) (fun x y => decide (x > y)) val lower upper)
        lower upper
      = clamp (fun x y => decide (x < y)) (fun x y => decide (x > y)) val lower upper := by
  have hin : ∀ v : T, lower ≤ v → v ≤ upper →
      clamp (fun x y => decide (x < y)) (fun x y => decide (x > y)) v lower upper = v := by
    intro v h1 h2
    simp [clamp, not_lt.mpr h1, not_lt.mpr h2]
  have hlo : lower ≤
      clamp (fun x y => decide (x < y)) (fun x y => decide (x > y)) val lower upper := by
    unfold clamp
    split_ifs with h1 h2
    · exact le_refl lower
    · exact hbounds
    · simpa using h1
  have hup :
      clamp (fun x y => decide (x < y)) (fun x y => decide (x > y)) val lower upper ≤ upper := by
    unfold clamp
    split_ifs with h1 h2
    · exact hbounds
    · exact le_refl upper
    · simpa using h2
  exact ⟨hlo, hup, hin val, hin _ hlo hup⟩

/-- Witness of C19: `clamp(10, 0, 5)` on `int`. -/
theorem clamp_projects_onto_interval_witness :
    (0 : Int) ≤ 5 ∧
    (0 : Int) ≤ clamp (fun x y => decide (x < y)) (fun x y => decide (x > y)) 10 0 5 ∧
    clamp (fun x y => decide (x < y)) (fun x y => decide (x > y)) (10 : Int) 0 5 ≤ 5 :=
  ⟨by decide, (clamp_projects_onto_interval (10 : Int) 0 5 (by decide)).1,
    (clamp_projects_onto_interval (10 : Int) 0 5 (by decide)).2.1⟩

/-! ## Safety, round trips and counting -/

section CollectionClaims2

variable [DecidableEq α]

/-- C15: `removeFromVector` and `insertIntoVector` always return `true` or
`false`. Inside the loop guard `i < size` both `vector.at(i)` and the erase at
`begin() + i` succeed, and the insert at `begin() + index` is reached only with
`0 ≤ index < size`, where it succeeds. -/
theorem insert_remove_never_throw (seq : List α) (index : Int) (e : α)
    (hindex : INT_MIN ≤ index ∧ index ≤ INT_MAX) :
    (∃ b s, removeFromVector seq e = .ok (b, s)) ∧
    (∃ b s, insertIntoVector seq index e = .ok (b, s)) ∧
    (∀ i : Nat, i < seq.length →
      (∃ item, vector_at seq i = .ok item) ∧ (∃ s, vector_erase seq i = .ok s)) ∧
    (¬ index < 0 → ¬ toSizeT index ≥ seq.length →
      (0 ≤ index ∧ index < (seq.length : Int)) ∧ ∃ s, vector_insert seq index e = .ok s) ∧
    (∃ s, vector_insert seq 0 e = .ok s) := by
  refine ⟨⟨_, _, removeFromVector_eq seq e⟩, ?_, ?_, ?_, ?_⟩
  · by_cases h : e ∈ seq
    · exact ⟨_, _, insertIntoVector_of_mem seq index e h⟩
    · exact ⟨_, _, insertIntoVector_eq seq index e hindex h⟩
  · intro i hi
    exact ⟨⟨seq[i], by simp [vector_at, hi]⟩, ⟨seq.take i ++ seq.drop (i + 1), by simp [vector_erase, hi]⟩⟩
  · intro hneg hsize
    have h0 : 0 ≤ index := by omega
    rw [toSizeT_of_int index h0 hindex.2] at hsize
    have hlt : index < (seq.length : Int) := by omega
    exact ⟨⟨h0, hlt⟩, ⟨seq.take index.toNat ++ e :: seq.drop index.toNat,
      by simp [vector_insert, h0, le_of_lt hlt]⟩⟩
  · exact ⟨e :: seq, by simp [vector_insert]⟩

/-- Witness of C15: removing `2` from `[1, 2, 3]` and inserting `9` at index `1`. -/
theorem insert_remove_never_throw_witness :
    (∃ b s, removeFromVector [1, 2, 3] 2 = .ok (b, s)) ∧
    (∃ b s, insertIntoVector [1, 2, 3] 1 9 = .ok (b, s)) :=
  ⟨(insert_remove_never_throw [1, 2, 3] 1 2 (by decide)).1,
   (insert_remove_never_throw [1, 2, 3] 1 9 (by decide)).2.1⟩

/-- C16: for an element `e` that does not occur in `seq` and an `int` index,
`insertIntoVector(seq, index, e)` followed by `removeFromVector(seq, e)` returns
`true` both times and leaves exactly the original `seq`; the same holds with
`addToVector(seq, e)` in place of the insert. -/
theorem insert_then_remove_round_trip (seq : List α) (index : Int) (e : α)
    (hindex : INT_MIN ≤ index ∧ index ≤ INT_MAX) (he : e ∉ seq) :
    (∃ s, insertIntoVector seq index e = .ok (true, s) ∧
      removeFromVector s e = .ok (true, seq)) ∧
    ((addToVector seq e).1 = true ∧
      removeFromVector (addToVector seq e).2 e = .ok (true, seq)) := by
  constructor
  · refine ⟨_, insertIntoVector_eq seq index e hindex he, ?_⟩
    rw [removeFromVector_eq]
    have hnot : e ∉ seq.take index.toNat := fun h => he (List.mem_of_mem_take h)
    rw [List.erase_append_right _ hnot, List.erase_cons_head, List.take_append_drop]
    simp
  · rw [addToVector_eq]
    simp only [he, ↓reduceIte, true_and]
    rw [removeFromVector_eq, List.erase_append_right _ he]
    simp

/-- Witness of C16: inserting `9` into `[1, 2, 3]` at index `1`, then removing it. -/
theorem insert_then_remove_round_trip_witness :
    (9 : Nat) ∉ [1, 2, 3] ∧
    (∃ s, insertIntoVector [1, 2, 3] 1 9 = .ok (true, s) ∧
      removeFromVector s 9 = .ok (true, [1, 2, 3])) :=
  ⟨by decide, (insert_then_remove_round_trip [1, 2, 3] 1 9 (by decide) (by decide)).1⟩

/-- C17: for an element `e` that occurs in `seq`, duplicates allowed,
`removeFromVector(seq, e)` returns `true` and leaves a sequence with one slot
equal to `e` fewer, one slot fewer in all, and as many slots equal to any other
element as before; `vectorContainsElement` is then false exactly when `e`
occurred once, as it does in a duplicate-free sequence. -/
theorem removeFromVector_lowers_count_by_one (seq : List α) (e : α) (he : e ∈ seq) :
    ∃ s, removeFromVector seq e = .ok (true, s) ∧
      s.count e + 1 = seq.count e ∧
      s.length + 1 = seq.length ∧
      (∀ x, x ≠ e → s.count x = seq.count x) ∧
      ((vectorContainsElement s e).1 = false ↔ seq.count e = 1) ∧
      (seq.Nodup → (vectorContainsElement s e).1 = false) := by
  have hpos : 0 < seq.count e := List.count_pos_iff.mpr he
  have hlen : 0 < seq.length := List.length_pos_of_mem he
  have hcount : (seq.erase e).count e + 1 = seq.count e := by
    rw [List.count_erase_self]
    omega
  have hiff : (vectorContainsElement (seq.erase e) e).1 = false ↔ seq.count e = 1 := by
    rw [vectorContainsElement_eq]
    simp only [decide_eq_false_iff_not]
    rw [← List.count_eq_zero]
    omega
  refine ⟨seq.erase e, ?_, hcount, ?_, ?_, hiff, ?_⟩
  · rw [removeFromVector_eq]
    simp [he]
  · rw [List.length_erase_of_mem he]
    omega
  · intro x hx
    exact List.count_erase_of_ne hx seq
  · intro hnd
    exact hiff.mpr (List.count_eq_one_of_mem hnd he)

/-- Witness of C17: removing `1` from `[1, 2, 1]`, which holds it twice. -/
theorem removeFromVector_lowers_count_by_one_witness :
    (1 : Nat) ∈ [1, 2, 1] ∧
    ∃ s, removeFromVector [1, 2, 1] 1 = .ok (true, s) ∧
      s.count 1 + 1 = [1, 2, 1].count 1 ∧
      s.length + 1 = [1, 2, 1].length :=
  ⟨by decide,
    (removeFromVector_lowers_count_by_one [1, 2, 1] 1 (by decide)).imp
      (fun _ h => ⟨h.1, h.2.1, h.2.2.1⟩)⟩

/-- C20: for `V1` and `V2` without repeated element, `combineVectors(V1, V2)`
has no repeated element if and only if `V1` and `V2` share no element; and an
element occurs in `combineVectors(V1, V2)` if and only if it occurs in `V1` or
in `V2`. -/
theorem combineVectors_unique_iff_disjoint (V1 V2 : List α) (h1 : V1.Nodup) (h2 : V2.Nodup) :
    ((combineVectors V1 V2).Nodup ↔ ∀ x, x ∈ V1 → x ∉ V2) ∧
    (∀ e, e ∈ combineVectors V1 V2 ↔ e ∈ V1 ∨ e ∈ V2) ∧
    (∀ e, (vectorContainsElement (combineVectors V1 V2) e).1 = true ↔
      (vectorContainsElement V1 e).1 = true ∨ (vectorContainsElement V2 e).1 = true) := by
  have h : combineVectors V1 V2 = V1 ++ V2 := by
    simp [combineVectors, vector_insert_range]
  rw [h]
  refine ⟨?_, ?_, ?_⟩
  · rw [List.nodup_append]
    constructor
    · intro hnd x hx1 hx2
      exact hnd.2.2 hx1 hx2
    · intro hdis
      exact ⟨h1, h2, fun x hx1 hx2 => hdis x hx1 hx2⟩
  · intro e
    exact List.mem_append
  · intro e
    simp [vectorContainsElement_eq]

/-- Witness of C20: `[1, 2]` with `[3, 4]`, which share no element. -/
theorem combineVectors_unique_iff_disjoint_witness :
    ([1, 2] : List Nat).Nodup ∧ ([3, 4] : List Nat).Nodup ∧
    ((combineVectors [1, 2] [3, 4]).Nodup ↔ ∀ x, x ∈ [1, 2] → x ∉ [3, 4]) :=
  ⟨by decide, by decide,
    (combineVectors_unique_iff_disjoint [1, 2] [3, 4] (by decide) (by decide)).1⟩

end CollectionClaims2

/-! ## Extractions and the loop of `splitString<T>` -/

/-- What `skipws` leaves starts with a character that is not whitespace. -/
theorem skipws_head (l : List Char) (c : Char) (cs : List Char) (h : skipws l = c :: cs) :
    isspace c = false := by
  induction l with
  | nil => simp [skipws] at h
  | cons x xs ih =>
    unfold skipws at h
    split at h
    · exact ih h
    · rename_i hx
      injection h with h1 h2
      subst h1
      simpa using hx

/-- An extraction `ss >> var` of a `std::string` that does not fail reads at
least one character. -/
theorem extractString_reads (ss : StringStream) (var : String)
    (h : (extractString ss var).1.fail = false) :
    (extractString ss var).1.buf.length < ss.buf.length := by
  generalize hr : extractString ss var = r at h ⊢
  unfold extractString at hr
  split at hr
  · subst hr
    simp [StringStream.fail] at h
  · have hws := skipws_length_le ss.buf
    split at hr
    · subst hr
      simp [StringStream.fail] at h
    · rename_i c cs hsk
      rw [hsk] at hws
      simp only at hr
      have hlen : ((c :: cs).takeWhile (fun x => !isspace x)).length
          + ((c :: cs).dropWhile (fun x => !isspace x)).length = (c :: cs).length := by
        rw [← List.length_append, List.takeWhile_append_dropWhile]
      split at hr
      · subst hr
        simp [StringStream.fail] at h
      · rename_i hne
        have hpos : 0 < ((c :: cs).takeWhile (fun x => !isspace x)).length := by
          rw [List.length_pos]
          intro hnil
          exact hne (by rw [hnil]; rfl)
        subst hr
        simp only
        omega

/-- On a stream with nothing left to read the extraction of an `int` fails. -/
theorem extractInt_of_empty (ss : StringStream) (var : Int) (h : ss.buf = []) :
    (extractInt ss var).1.fail = true := by
  unfold extractInt
  split
  · simp [StringStream.fail]
  · simp [h, skipws, StringStream.fail]

/-- On a stream with nothing left to read the extraction of a `std::string`
fails. -/
theorem extractString_of_empty (ss : StringStream) (var : String) (h : ss.buf = []) :
    (extractString ss var).1.fail = true := by
  unfold extractString
  split
  · simp [StringStream.fail]
  · simp [h, skipws, StringStream.fail]

/-- The extraction of an `int` never touches `badbit`. -/
theorem extractInt_badbit (ss : StringStream) (var : Int) :
    (extractInt ss var).1.badbit = ss.badbit := by
  unfold extractInt
  split
  · rfl
  · split
    · rfl
    · simp only
      split_ifs <;> rfl

/-- The extraction of a `std::string` never touches `badbit`. -/
theorem extractString_badbit (ss : StringStream) (var : String) :
    (extractString ss var).1.badbit = ss.badbit := by
  unfold extractString
  split
  · rfl
  · split
    · rfl
    · simp only
      split_ifs <;> rfl

/-- Peeling the first of `n + 1` successive extractions. -/
theorem afterExtractions_succ {T : Type} (extract : StringStream → T → StringStream × T)
    (n : Nat) (ss : StringStream) (var : T) :
    afterExtractions extract (n + 1) ss var
      = afterExtractions extract n (extract ss var).1 (extract ss var).2 := by
  induction n with
  | zero => rfl
  | succ n ih =>
    rw [afterExtractions, ih]
    rfl

/-- For an extraction that reads at least one character whenever it does not
fail, the loop of `splitString<T>` appends the values of the successive
extractions before the first failing one, whatever the bound on the rounds
above the number of unread characters. -/
theorem splitString_loop_until_failure {T : Type}
    (extract : StringStream → T → StringStream × T)
    (hreads : ∀ ss var, (extract ss var).1.fail = false →
      (extract ss var).1.buf.length < ss.buf.length)
    (rounds : Nat) (ss : StringStream) (var : T) (vec : List T)
    (hrounds : ss.buf.length < rounds) :
    ∃ k, (∀ i, i < k → (afterExtractions extract (i + 1) ss var).1.fail = false) ∧
      (afterExtractions extract (k + 1) ss var).1.fail = true ∧
      splitString.loop extract rounds ss var vec
        = vec ++ (List.range k).map (fun i => (afterExtractions extract (i + 1) ss var).2) := by
  induction rounds generalizing ss var vec with
  | zero => omega
  | succ rounds ih =>
    by_cases hf : (extract ss var).1.fail = true
    · refine ⟨0, fun i hi => absurd hi (Nat.not_lt_zero i), hf, ?_⟩
      simp [splitString.loop, hf]
    · have hf2 : (extract ss var).1.fail = false := by simpa using hf
      have hbad : (extract ss var).1.bad = false := by
        simp only [StringStream.fail, Bool.or_eq_false_iff] at hf2
        exact hf2.2
      have hlt := hreads ss var hf2
      obtain ⟨k, hk1, hk2, hk3⟩ :=
        ih (extract ss var).1 (extract ss var).2 (push_back vec (extract ss var).2) (by omega)
      refine ⟨k + 1, ?_, ?_, ?_⟩
      · intro i hi
        cases i with
        | zero => exact hf2
        | succ i =>
          rw [afterExtractions_succ]
          exact hk1 i (by omega)
      · rw [afterExtractions_succ]
        exact hk2
      · simp only [splitString.loop, hf2, hbad, Bool.false_eq_true, ↓reduceIte]
        rw [hk3, List.range_succ_eq_map, List.map_cons, List.map_map, push_back,
          List.append_assoc]
        have hfirst : (afterExtractions extract (0 + 1) ss var).2 = (extract ss var).2 := rfl
        rw [hfirst]
        simp only [List.singleton_append]
        congr 2
        apply List.map_congr_left
        intro i _
        simp only [Function.comp_apply, Nat.succ_eq_add_one]
        rw [afterExtractions_succ extract (i + 1)]


/-- For an extraction that reads at least one character whenever it does not
fail and that fails on an exhausted stream, `splitString<T>(str)` is the list of
the values of the successive extractions before the first failing one. -/
theorem splitString_until_failure {T : Type}
    (extract : StringStream → T → StringStream × T)
    (hreads : ∀ ss var, (extract ss var).1.fail = false →
      (extract ss var).1.buf.length < ss.buf.length)
    (hempty : ∀ ss var, ss.buf = [] → (extract ss var).1.fail = true)
    (var : T) (str : String) :
    ∃ k, (∀ i, i < k →
        (afterExtractions extract (i + 1) (StringStream.str str) var).1.fail = false) ∧
      (afterExtractions extract (k + 1) (StringStream.str str) var).1.fail = true ∧
      splitString extract var str
        = (List.range k).map
            (fun i => (afterExtractions extract (i + 1) (StringStream.str str) var).2) := by
  by_cases hlen : str.length = 0
  · have hnil : (StringStream.str str).buf = [] := List.length_eq_zero.mp hlen
    refine ⟨0, fun i hi => absurd hi (Nat.not_lt_zero i), ?_, ?_⟩
    · exact hempty _ _ hnil
    · simp [splitString, hlen]
  · obtain ⟨k, hk1, hk2, hk3⟩ := splitString_loop_until_failure extract hreads
      (str.length + 1) (StringStream.str str) var [] (Nat.lt_succ_self _)
    refine ⟨k, hk1, hk2, ?_⟩
    simp only [splitString, hlen, ↓reduceIte]
    rw [hk3, List.nil_append]

/-- In a round of the loop of `splitString<T>` that passed `while (ss >> var)`
the test `ss.bad()` is false, whatever the extraction. -/
theorem bad_false_of_fail_false (ss : StringStream) (h : ss.fail = false) : ss.bad = false := by
  simp only [StringStream.fail, Bool.or_eq_false_iff] at h
  exact h.2

/-- C18: in `splitString<T>`, for `T = int` and `T = std::string`, the result is
the list of the values of the successive extractions before the first one that
fails, so nothing after the first unparsable token is in the result; `ss.bad()`
is false after every extraction, so the `continue` is never taken; and
`splitString<int>("1 a 2")` is `[1]`. -/
theorem splitString_ends_at_first_failed_extraction (str : String) (ivar : Int)
    (svar : String) :
    (∃ k, (∀ i, i < k →
        (afterExtractions extractInt (i + 1) (StringStream.str str) ivar).1.fail = false) ∧
      (afterExtractions extractInt (k + 1) (StringStream.str str) ivar).1.fail = true ∧
      splitString extractInt ivar str
        = (List.range k).map
            (fun i => (afterExtractions extractInt (i + 1) (StringStream.str str) ivar).2)) ∧
    (∃ k, (∀ i, i < k →
        (afterExtractions extractString (i + 1) (StringStream.str str) svar).1.fail = false) ∧
      (afterExtractions extractString (k + 1) (StringStream.str str) svar).1.fail = true ∧
      splitString extractString svar str
        = (List.range k).map
            (fun i => (afterExtractions extractString (i + 1) (StringStream.str str) svar).2)) ∧
    (∀ n, (afterExtractions extractInt n (StringStream.str str) ivar).1.bad = false) ∧
    (∀ n, (afterExtractions extractString n (StringStream.str str) svar).1.bad = false) ∧
    splitString extractInt ivar "1 a 2" = [1] := by
  refine ⟨splitString_until_failure extractInt extractInt_reads extractInt_of_empty ivar str,
    splitString_until_failure extractString extractString_reads extractString_of_empty svar str,
    ?_, ?_, rfl⟩
  · intro n
    induction n with
    | zero => rfl
    | succ n ih =>
      simp only [afterExtractions, StringStream.bad] at ih ⊢
      rw [extractInt_badbit, ih]
  · intro n
    induction n with
    | zero => rfl
    | succ n ih =>
      simp only [afterExtractions, StringStream.bad] at ih ⊢
      rw [extractString_badbit, ih]

/-- Witness of C18: on `"1 a 2"` the second extraction of an `int` is the first
that fails, and the result holds the value of the first alone. -/
theorem splitString_ends_at_first_failed_extraction_witness :
    (afterExtractions extractInt 1 (StringStream.str "1 a 2") 0).1.fail = false ∧
    (afterExtractions extractInt 2 (StringStream.str "1 a 2") 0).1.fail = true ∧
    (afterExtractions extractInt 2 (StringStream.str "1 a 2") 0).1.bad = false ∧
    splitString extractInt 0 "1 a 2" = [1] :=
  ⟨by decide, by decide,
    (splitString_ends_at_first_failed_extraction "1 a 2" 0 "").2.2.1 2,
    (splitString_ends_at_first_failed_extraction "1 a 2" 0 "").2.2.2.2⟩

/-- On a good stream that holds only whitespace the extraction of an `int`
leaves the variable as it was. -/
theorem extractInt_of_blank (ss : StringStream) (var : Int) (hgood : ss.good = true)
    (h : skipws ss.buf = []) : (extractInt ss var).2 = var := by
  unfold extractInt
  simp only [hgood, Bool.not_true, Bool.false_eq_true, ↓reduceIte]
  rw [h]

/-- On a good stream whose first non-whitespace characters hold no digit after
an optional sign, the extraction of an `int` stores `0`. -/
theorem extractInt_of_no_digit (ss : StringStream) (var : Int) (c : Char) (cs : List Char)
    (hgood : ss.good = true) (h : skipws ss.buf = c :: cs)
    (hd : (if c = '-' || c = '+' then cs else c :: cs).takeWhile isdigit = []) :
    (extractInt ss var).2 = 0 := by
  unfold extractInt
  simp only [hgood, Bool.not_true, Bool.false_eq_true, ↓reduceIte]
  rw [h]
  simp only [hd, List.isEmpty_nil, ↓reduceIte]

/-- C12 fails on the code for a string without any non-whitespace character:
the sentry of `ss >> val` fails before anything is stored, so
`convertString<int>` returns the uninitialised local `val`, whatever it holds,
and not `0`. When the first non-whitespace characters are not a numeral the
extraction stores `0`, as the claim says. -/
theorem convertString_blank_returns_uninitialised (val : Int) :
    convertString extractInt val "" = val ∧
    convertString extractInt val " \t\n" = val ∧
    convertString extractInt 7 "" ≠ 0 ∧
    (∀ str : String, skipws str.toList = [] → convertString extractInt val str = val) ∧
    convertString extractInt val "abc" = 0 ∧
    (∀ (str : String) (c : Char) (cs : List Char), skipws str.toList = c :: cs →
      (if c = '-' || c = '+' then cs else c :: cs).takeWhile isdigit = [] →
      convertString extractInt val str = 0) := by
  refine ⟨rfl, rfl, by decide, ?_, rfl, ?_⟩
  · intro str h
    exact extractInt_of_blank (StringStream.str str) val rfl h
  · intro str c cs h hd
    exact extractInt_of_no_digit (StringStream.str str) val c cs rfl h hd

/-! ## `splitString<std::string>` -/

/-- The empty list of characters has no non-empty piece between whitespace
characters. -/
theorem runs_nil :
    (([] : List Char).splitOnP isspace).filter (fun run => !run.isEmpty) = [] := by
  simp [List.splitOnP_nil]

/-- A leading whitespace character adds no piece. -/
theorem runs_cons_space (w : Char) (l : List Char) (hw : isspace w = true) :
    ((w :: l).splitOnP isspace).filter (fun run => !run.isEmpty)
      = (l.splitOnP isspace).filter (fun run => !run.isEmpty) := by
  rw [List.splitOnP_cons]
  simp [hw]

/-- Skipping leading whitespace keeps the pieces. -/
theorem runs_skipws (l : List Char) :
    ((skipws l).splitOnP isspace).filter (fun run => !run.isEmpty)
      = (l.splitOnP isspace).filter (fun run => !run.isEmpty) := by
  induction l with
  | nil => rfl
  | cons x xs ih =>
    unfold skipws
    split
    · rename_i hx
      rw [ih, runs_cons_space x xs hx]
    · rfl

/-- The first piece of a list that starts with a character that is not
whitespace is its longest whitespace-free beginning; the other pieces are those
of what follows. -/
theorem runs_cons_word (c : Char) (cs : List Char) (hc : isspace c = false) :
    ((c :: cs).splitOnP isspace).filter (fun run => !run.isEmpty)
      = (c :: cs).takeWhile (fun x => !isspace x) ::
        (((c :: cs).dropWhile (fun x => !isspace x)).splitOnP isspace).filter
          (fun run => !run.isEmpty) := by
  have hword : ∀ x ∈ (c :: cs).takeWhile (fun x => !isspace x), ¬ isspace x = true := by
    intro x hx
    have := List.mem_takeWhile_imp hx
    simpa using this
  have hne : ((c :: cs).takeWhile (fun x => !isspace x)).isEmpty = false := by
    simp [List.takeWhile_cons, hc]
  have hsplit := List.takeWhile_append_dropWhile (fun x => !isspace x) (c :: cs)
  generalize hrest : (c :: cs).dropWhile (fun x => !isspace x) = rest at hsplit ⊢
  cases rest with
  | nil =>
    rw [List.append_nil] at hsplit
    have hall : ∀ x ∈ c :: cs, ¬ isspace x = true := by
      rw [← hsplit]
      exact hword
    rw [List.splitOnP_eq_single isspace (c :: cs) hall, hsplit]
    simp
  | cons sep as =>
    have hsep : isspace sep = true := by
      have h := List.head_dropWhile_not (fun x => !isspace x) (c :: cs)
        (by rw [hrest]; exact List.cons_ne_nil sep as)
      simp only [hrest, List.head_cons] at h
      simpa using h
    have hfirst := List.splitOnP_first isspace _ hword sep hsep as
    rw [hsplit] at hfirst
    rw [hfirst, runs_cons_space sep as hsep]
    simp [List.filter_cons, hne]


/-- No piece produced by splitting at whitespace holds a whitespace character. -/
theorem splitOnP_isspace_free (l : List Char) :
    ∀ piece ∈ l.splitOnP isspace, ∀ x ∈ piece, isspace x = false := by
  induction l with
  | nil => simp [List.splitOnP_nil]
  | cons a as ih =>
    rw [List.splitOnP_cons]
    by_cases ha : isspace a = true
    · simp only [ha, ↓reduceIte, List.mem_cons]
      rintro piece (rfl | hp) x hx
      · simp at hx
      · exact ih piece hp x hx
    · simp only [ha, Bool.false_eq_true, ↓reduceIte]
      generalize hs : as.splitOnP isspace = pieces at ih
      cases pieces with
      | nil => simp [List.modifyHead]
      | cons first others =>
        simp only [List.modifyHead, List.mem_cons]
        rintro piece (rfl | hp) x hx
        · rcases List.mem_cons.mp hx with rfl | hx
          · simpa using ha
          · exact ih first (List.mem_cons_self _ _) x hx
        · exact ih piece (List.mem_cons_of_mem _ hp) x hx

/-- The pieces, put together, are the characters that are not whitespace. -/
theorem splitOnP_isspace_flatten (l : List Char) :
    (l.splitOnP isspace).flatten = l.filter (fun x => !isspace x) := by
  induction l with
  | nil => simp [List.splitOnP_nil]
  | cons a as ih =>
    rw [List.splitOnP_cons]
    by_cases ha : isspace a = true
    · simp [ha, ih]
    · simp only [ha, Bool.false_eq_true, ↓reduceIte]
      have hne := List.splitOnP_ne_nil isspace as
      generalize hs : as.splitOnP isspace = pieces at ih hne
      cases pieces with
      | nil => exact absurd rfl hne
      | cons first others =>
        simp only [List.modifyHead, List.flatten_cons, List.cons_append] at ih ⊢
        rw [ih]
        simp [List.filter_cons, ha]

/-- The loop of `splitString<std::string>` on a stream without `failbit` and
`badbit`, whose `eofbit` is set only when nothing is left to read, appends the
non-empty pieces between the whitespace characters of what is left. -/
theorem splitString_loop_string (rounds : Nat) (ss : StringStream) (var : String)
    (vec : List String) (hfail : ss.failbit = false) (hbad : ss.badbit = false)
    (heof : ss.eofbit = true → ss.buf = []) (hrounds : ss.buf.length < rounds) :
    splitString.loop extractString rounds ss var vec
      = vec ++ ((ss.buf.splitOnP isspace).filter (fun run => !run.isEmpty)).map String.mk := by
  induction rounds generalizing ss var vec with
  | zero => omega
  | succ rounds ih =>
    rw [splitString.loop]
    by_cases he : ss.eofbit = true
    · have hr : extractString ss var = ({ ss with failbit := true }, var) := by
        simp [extractString, StringStream.good, he]
      simp [hr, StringStream.fail, heof he]
    · have hgood : ss.good = true := by
        simp [StringStream.good, he, hfail, hbad]
      have hws := skipws_length_le ss.buf
      rw [← runs_skipws ss.buf]
      cases hsk : skipws ss.buf with
      | nil =>
        have hr : extractString ss var
            = ({ ss with buf := [], eofbit := true, failbit := true }, var) := by
          simp [extractString, hgood, hsk]
        simp [hr, StringStream.fail]
      | cons c cs =>
        have hc := skipws_head ss.buf c cs hsk
        rw [hsk] at hws
        have hne : ((c :: cs).takeWhile (fun x => !isspace x)).isEmpty = false := by
          simp [List.takeWhile_cons, hc]
        have hlen : ((c :: cs).takeWhile (fun x => !isspace x)).length
            + ((c :: cs).dropWhile (fun x => !isspace x)).length = (c :: cs).length := by
          rw [← List.length_append, List.takeWhile_append_dropWhile]
        have hpos : 0 < ((c :: cs).takeWhile (fun x => !isspace x)).length := by
          rw [List.length_pos]
          intro hnil
          rw [hnil] at hne
          exact Bool.noConfusion hne
        have hr : extractString ss var
            = ({ ss with buf := (c :: cs).dropWhile (fun x => !isspace x),
                         eofbit := ((c :: cs).dropWhile (fun x => !isspace x)).isEmpty },
               String.mk ((c :: cs).takeWhile (fun x => !isspace x))) := by
          unfold extractString
          simp only [hgood, Bool.not_true, Bool.false_eq_true, ↓reduceIte]
          rw [hsk]
          simp only [hne, Bool.false_eq_true, ↓reduceIte]
        rw [hr]
        simp only [StringStream.fail, StringStream.bad, hfail, hbad, Bool.or_self,
          Bool.false_eq_true, ↓reduceIte]
        rw [ih ⟨(c :: cs).dropWhile (fun x => !isspace x),
              ((c :: cs).dropWhile (fun x => !isspace x)).isEmpty, false, false⟩ _ _ rfl rfl
            (by
              intro h
              simpa using h)
            (by
              simp only
              omega)]
        rw [runs_cons_word c cs hc, push_back]
        simp


/-- Closed form of `splitString<std::string>`. -/
theorem splitString_string_eq (str : String) (var : String) :
    splitString extractString var str = nonWhitespaceRuns str := by
  unfold splitString nonWhitespaceRuns
  by_cases hlen : str.length = 0
  · have hnil : str.toList = [] := List.length_eq_zero.mp hlen
    simp only [hlen, ↓reduceIte]
    rw [hnil]
    rfl
  · simp only [hlen, ↓reduceIte]
    rw [splitString_loop_string (str.length + 1) (StringStream.str str) var [] rfl rfl
      (fun h => Bool.noConfusion h) (Nat.lt_succ_self _)]
    rfl

/-- C11: `splitString<std::string>(str)` is the list of the maximal runs of
non-whitespace characters of `str`, left to right: no element is empty or holds
a whitespace character, the elements together are the non-whitespace characters
of `str` in order, and an empty or all-whitespace `str` gives the empty
sequence. -/
theorem splitString_string_is_nonWhitespaceRuns (str : String) (var : String) :
    splitString extractString var str = nonWhitespaceRuns str ∧
    (∀ t ∈ splitString extractString var str,
      t ≠ "" ∧ ∀ c ∈ t.toList, isspace c = false) ∧
    ((splitString extractString var str).map String.toList).flatten
      = str.toList.filter (fun c => !isspace c) ∧
    ((∀ c ∈ str.toList, isspace c = true) → splitString extractString var str = []) ∧
    splitString extractString var "" = [] ∧
    splitString extractString var "  ab  c\td\n" = ["ab", "c", "d"] := by
  have heq := splitString_string_eq str var
  have htok : ∀ t ∈ splitString extractString var str,
      t ≠ "" ∧ ∀ c ∈ t.toList, isspace c = false := by
    rw [heq]
    intro t ht
    simp only [nonWhitespaceRuns, List.mem_map, List.mem_filter] at ht
    obtain ⟨run, ⟨hrun, hne⟩, rfl⟩ := ht
    constructor
    · intro h
      have hdata : run = [] := congrArg String.toList h
      rw [hdata] at hne
      simp at hne
    · exact splitOnP_isspace_free str.toList run hrun
  have hflat : ((splitString extractString var str).map String.toList).flatten
      = str.toList.filter (fun c => !isspace c) := by
    rw [heq, nonWhitespaceRuns, List.map_map]
    have hid : (String.toList ∘ String.mk) = id := rfl
    rw [hid, List.map_id, List.flatten_filter_not_isEmpty, splitOnP_isspace_flatten]
  refine ⟨heq, htok, hflat, ?_, rfl, rfl⟩
  intro hall
  have hnone : str.toList.filter (fun c => !isspace c) = [] := by
    rw [List.filter_eq_nil_iff]
    intro c hc
    simp [hall c hc]
  rw [hnone] at hflat
  cases hres : splitString extractString var str with
  | nil => rfl
  | cons t ts =>
    rw [hres] at hflat htok
    have ht := (htok t (List.mem_cons_self _ _)).1
    simp only [List.map_cons, List.flatten_cons, List.append_eq_nil] at hflat
    exact absurd (congrArg String.mk hflat.1) ht

/-- Witness of C11: a string of three whitespace characters gives no element. -/
theorem splitString_string_is_nonWhitespaceRuns_witness :
    (∀ c ∈ " \t\n".toList, isspace c = true) ∧
    splitString extractString "" " \t\n" = [] :=
  ⟨by decide, (splitString_string_is_nonWhitespaceRuns " \t\n" "").2.2.2.1 (by decide)⟩

end util
